import Mathlib

/-!
Shallow embedding of the reconciliation pipeline in
`rmgpy/tools/loader.py` (`load_rmg_py_job`): observed-species synthesis
for sampled reactors, the species identity map, flux-pair completion,
per-reactor-variant field remapping, and the image-directory creation
step.  Python dictionaries are modelled as association lists in
insertion order, a raised `KeyError` is modelled by `Option` returning
`none`, and species labels are lists of characters.
-/

namespace RMGLoader

/-- Species labels are Python strings, modelled as lists of characters. -/
abbrev Label := List Char

/-- A chemical species as used by the loader: a label, a reactivity flag
and a list of structure identifiers (the `molecule` list).  Structures
are abstracted to numeric codes because molecular-graph construction is
an external collaborator. -/
structure Species where
  label : Label
  reactive : Bool
  molecule : List Nat
deriving DecidableEq

/-- Modelled from the spec: `Species.is_isomorphic` belongs to the external
graph-matching collaborator (not under `src/`).  The spec says two species
are equivalent iff any structure of one is isomorphic to any structure of
the other; structure isomorphism is abstracted to equality of structure
codes.  The argument order matches `a.is_isomorphic(b)` in the source. -/
def isIso (a b : Species) : Bool :=
  a.molecule.any (fun s => b.molecule.contains s)

/-- The observed-species naming suffix, the Python string `_obs`. -/
def obsSuffix : Label := ['_', 'o', 'b', 's']

/-- Boolean test that a label begins with a given label, used to express
Python substring containment. -/
def labStarts : Label → Label → Bool
  | [], _ => true
  | _ :: _, [] => false
  | a :: as, b :: bs => a == b && labStarts as bs

/-- Python `'_obs' in label`: the label has `_obs` as a contiguous
substring. -/
def hasObsTag : Label → Bool
  | [] => false
  | c :: rest => labStarts obsSuffix (c :: rest) || hasObsTag rest

/-- The observed copy of a species: a deep structural copy (value copy)
relabeled with the observed suffix, as built by `species.copy(deep=True)`
followed by the label assignment. -/
def mkObs (s : Species) : Species :=
  { s with label := s.label ++ obsSuffix }

/-- The staging condition of the synthesizer loop: the species label does
not contain `_obs`, the species is reactive, it is isomorphic to none of
the reactor's constant species, and no species in the current canonical
list carries its label plus the observed suffix. -/
def qualifies (constants : List Species) (l : List Species) (s : Species) : Bool :=
  !(hasObsTag s.label) && s.reactive &&
    !(constants.any (fun c => isIso s c)) &&
    !(l.any (fun s2 => s2.label == s.label ++ obsSuffix))

/-- One pass of the observed-species synthesizer for a sampled reactor
with the given constant-species list: every qualifying species stages a
relabeled deep copy, and all staged copies are appended once at the end. -/
def synthObserved (constants : List Species) (l : List Species) : List Species :=
  l ++ (l.filter (qualifies constants l)).map mkObs

/-- First-match association-list lookup, the model of a Python dictionary
access `d[k]` returning `none` where Python raises `KeyError`. -/
def alookup {α β : Type} [DecidableEq α] (k : α) : List (α × β) → Option β
  | [] => none
  | p :: d => if p.1 = k then some p.2 else alookup k d

/-- Python dictionary insertion `d[k] = v`: replace the value at an
existing key in place, otherwise append the new binding. -/
def dictInsert {α β : Type} [DecidableEq α] (d : List (α × β)) (k : α) (v : β) :
    List (α × β) :=
  if k ∈ d.map Prod.fst then
    d.map (fun p => if p.1 = k then (k, v) else p)
  else
    d ++ [(k, v)]

/-- Python `dict(pairs)`: fold the pair list into a dictionary, later
duplicates of a key overwriting the value at the key's first position. -/
def dictOfList {α β : Type} [DecidableEq α] (ps : List (α × β)) : List (α × β) :=
  ps.foldl (fun d p => dictInsert d p.1 p.2) []

/-- Map a fallible function over a list, failing as soon as one element
fails; this models a Python comprehension in which each element may raise
`KeyError`. -/
def optMapList {α β : Type} (f : α → Option β) : List α → Option (List β)
  | [] => some []
  | a :: l =>
    match f a with
    | some b => (optMapList f l).map (fun bs => b :: bs)
    | none => none

/-- The species identity map built by the loader: for each initial
(specification-side) species, the first canonical species isomorphic to
it, in canonical list order; species with no match get no entry. -/
def speciesMapOf (initial canonical : List Species) : List (Species × Species) :=
  initial.filterMap
    (fun s0 => (canonical.find? (fun sp => isIso sp s0)).map (fun c => (s0, c)))

/-- A reaction: ordered reactants and products, plus the cached flux-pair
list (`reaction.pairs`), empty when pairs have not been derived. -/
structure Reaction where
  reactants : List Species
  products : List Species
  pairs : List (Species × Species)
deriving DecidableEq

/-- Flux-pair completion for one reaction: `generate_pairs` (external
pair-derivation capability, passed in as `der`) is invoked exactly when
the cached pair list is empty, mirroring `if not reaction.pairs`. -/
def completeOne (der : List Species → List Species → List (Species × Species))
    (r : Reaction) : Reaction :=
  if r.pairs.isEmpty then { r with pairs := der r.reactants r.products } else r

/-- Flux-pair completion over the whole canonical reaction list. -/
def completePairs (der : List Species → List Species → List (Species × Species))
    (l : List Reaction) : List Reaction :=
  l.map (completeOne der)

/-- An entry of a reactor's sensitivity list: either the literal string
element of the `['all']` sentinel, or a species reference. -/
inductive SensEntry where
  | allLit : SensEntry
  | sp (s : Species) : SensEntry
deriving DecidableEq

/-- A termination criterion: the conversion variant carries a species
reference and a target fraction; the time variant carries none. -/
inductive Termination where
  | conversion (species : Species) (conv : ℚ) : Termination
  | time (t : ℚ) : Termination
deriving DecidableEq

/-- The variant-specific part of a reactor: a liquid reactor holds the
constant-species name list and the initial concentrations, a surface
reactor holds gas mole fractions and surface coverages, a sampled
(`MBSampledReactor`) reactor holds its constant species and mole
fractions, and a plain gas-phase reactor holds mole fractions. -/
inductive ReactorData where
  | liquid (constSpcNames : List Label) (initialConcentrations : List (Species × ℚ)) :
      ReactorData
  | surface (initialGasMoleFractions initialSurfaceCoverages : List (Species × ℚ)) :
      ReactorData
  | sampled (constantSpeciesList : List Species)
      (initialMoleFractions : List (Species × ℚ)) : ReactorData
  | simple (initialMoleFractions : List (Species × ℚ)) : ReactorData
deriving DecidableEq

/-- A reactor: its variant-specific data, the termination criteria, and
the sensitivity list. -/
structure Reactor where
  data : ReactorData
  termination : List Termination
  sensitiveSpecies : List SensEntry
deriving DecidableEq

/-- Remap the keys of a species-to-quantity mapping through the identity
map, then rebuild the Python dictionary; `none` models the `KeyError`
raised when a key has no entry in the map. -/
def remapPairs (m : List (Species × Species)) (xs : List (Species × ℚ)) :
    Option (List (Species × ℚ)) :=
  (optMapList (fun p => (alookup p.1 m).map (fun c => (c, p.2))) xs).map dictOfList

/-- Remap one termination criterion: the conversion variant has its
species dereferenced through the identity map, every other variant is
left unchanged. -/
def remapTermination (m : List (Species × Species)) : Termination → Option Termination
  | Termination.conversion s f => (alookup s m).map (fun c => Termination.conversion c f)
  | Termination.time t => some (Termination.time t)

/-- Remap one sensitivity-list entry through the identity map; the bare
`all` literal is not a key of the map, so dereferencing it fails. -/
def remapSensEntry (m : List (Species × Species)) : SensEntry → Option SensEntry
  | SensEntry.allLit => none
  | SensEntry.sp s => (alookup s m).map SensEntry.sp

/-- Remap the sensitivity list: left untouched when it equals the
`['all']` sentinel, otherwise every entry is dereferenced. -/
def remapSensitive (m : List (Species × Species)) (l : List SensEntry) :
    Option (List SensEntry) :=
  if l = [SensEntry.allLit] then some l else optMapList (remapSensEntry m) l

/-- The inner scan of the liquid-reactor constant-name resolution: walk
the initial species; for each one whose label equals some constant name
(the first such name), bind that name to the canonical label of the
species' image under the identity map, raising `KeyError` (`none`) when
the species has no image. -/
def buildConstDict (m : List (Species × Species)) (names : List Label) :
    List Species → List (Label × Label) → Option (List (Label × Label))
  | [], d => some d
  | s0 :: rest, d =>
    match names.find? (fun nm => nm == s0.label) with
    | some nm =>
      match alookup s0 m with
      | some c => buildConstDict m names rest (dictInsert d nm c.label)
      | none => none
    | none => buildConstDict m names rest d

/-- Liquid-reactor constant-name remapping: build the name dictionary
from the initial species, then rewrite every constant name through it;
a name absent from the dictionary raises `KeyError` (`none`). -/
def constRemap (initial : List Species) (m : List (Species × Species))
    (names : List Label) : Option (List Label) :=
  match buildConstDict m names initial [] with
  | some d => optMapList (fun nm => alookup nm d) names
  | none => none

/-- Remap the variant-specific reactor fields: liquid reactors remap
their constant names (only when the name list is non-empty, mirroring
`if reaction_system.const_spc_names`) and concentrations, surface
reactors remap both mappings, and sampled and plain reactors remap
their mole fractions. -/
def remapReactorData (initial : List Species) (m : List (Species × Species)) :
    ReactorData → Option ReactorData
  | ReactorData.liquid names concs =>
    match (if names.isEmpty then some names else constRemap initial m names),
        remapPairs m concs with
    | some ns, some cs => some (ReactorData.liquid ns cs)
    | _, _ => none
  | ReactorData.surface g s =>
    match remapPairs m g, remapPairs m s with
    | some g2, some s2 => some (ReactorData.surface g2 s2)
    | _, _ => none
  | ReactorData.sampled c f => (remapPairs m f).map (ReactorData.sampled c)
  | ReactorData.simple f => (remapPairs m f).map ReactorData.simple

/-- Remap a whole reactor: its variant data, every termination criterion,
and the sensitivity list; any failed dictionary access aborts the
reactor's remapping. -/
def remapReactor (initial : List Species) (m : List (Species × Species))
    (r : Reactor) : Option Reactor :=
  match remapReactorData initial m r.data,
      optMapList (remapTermination m) r.termination,
      remapSensitive m r.sensitiveSpecies with
  | some d, some ts, some ss => some ⟨d, ts, ss⟩
  | _, _, _ => none

/-- Remap every reactor of the job; a `KeyError` in any reactor aborts
the whole load. -/
def remapAll (initial : List Species) (m : List (Species × Species))
    (rs : List Reactor) : Option (List Reactor) :=
  optMapList (remapReactor initial m) rs

/-- The keys a reactor's quantity mappings dereference during remapping. -/
def moleKeys : ReactorData → List Species
  | ReactorData.liquid _ concs => concs.map Prod.fst
  | ReactorData.surface g s => g.map Prod.fst ++ s.map Prod.fst
  | ReactorData.sampled _ f => f.map Prod.fst
  | ReactorData.simple f => f.map Prod.fst

/-- Exception classes that `os.mkdir` (or surrounding code) may raise,
with the Python class hierarchy relevant to the `except OSError` clause:
`FileExistsError`, `PermissionError` and `IsADirectoryError` are
subclasses of `OSError`; the remaining classes are not. -/
inductive ExcClass where
  | fileExistsError : ExcClass
  | permissionError : ExcClass
  | isADirectoryError : ExcClass
  | keyboardInterrupt : ExcClass
  | memoryError : ExcClass
deriving DecidableEq

/-- Python `isinstance(e, OSError)` over the modelled classes. -/
def isOSError : ExcClass → Bool
  | ExcClass.fileExistsError => true
  | ExcClass.permissionError => true
  | ExcClass.isADirectoryError => true
  | ExcClass.keyboardInterrupt => false
  | ExcClass.memoryError => false

/-- Outcome of the image-directory creation step: either the pipeline
continues, or the exception propagates to the caller. -/
inductive StepOutcome where
  | continued : StepOutcome
  | raised (e : ExcClass) : StepOutcome
deriving DecidableEq

/-- The source's image-directory creation step: `try: os.mkdir(...)
except OSError: pass` — the pipeline continues whenever the raised
exception is an `OSError` (of any cause), and only a non-`OSError`
exception propagates.  The argument is the exception raised by `mkdir`,
`none` when creation succeeds. -/
def mkdirHandled (raised : Option ExcClass) : StepOutcome :=
  match raised with
  | none => StepOutcome.continued
  | some e => if isOSError e then StepOutcome.continued else StepOutcome.raised e

/-- The behaviour the specification asks of the image-directory creation
step, stated from the spec's words for comparison: continue only when the
failure cause is "directory already exists", propagate every other
filesystem failure as fatal. -/
def mkdirHandledSpec (raised : Option ExcClass) : StepOutcome :=
  match raised with
  | none => StepOutcome.continued
  | some e =>
    if e = ExcClass.fileExistsError then StepOutcome.continued
    else StepOutcome.raised e

/-- Concrete species used to evaluate the pipeline at explicit inputs. -/
def sA : Species := ⟨['A'], true, [0]⟩

/-- A canonical species structurally identical to `sA` but labelled `A2`. -/
def sAdup : Species := ⟨['A', '2'], true, [0]⟩

/-- A specification-side species structurally identical to `sA`. -/
def sAspec : Species := ⟨['A', 's'], true, [0]⟩

/-- A concrete species with its own structure code. -/
def sB : Species := ⟨['B'], true, [1]⟩

/-- A concrete species with its own structure code. -/
def sC : Species := ⟨['C'], true, [2]⟩

section HelperLemmas

theorem optMapList_nil {α β : Type} (f : α → Option β) : optMapList f [] = some [] := rfl

theorem optMapList_cons {α β : Type} (f : α → Option β) (a : α) (l : List α) :
    optMapList f (a :: l) =
      match f a with
      | some b => (optMapList f l).map (fun bs => b :: bs)
      | none => none := rfl

theorem optMapList_eq_some {α β : Type} {f : α → Option β} :
    ∀ {l : List α} {res : List β}, optMapList f l = some res →
      res.length = l.length ∧
        ∀ i (hi : i < l.length) (hr : i < res.length),
          f (l.get ⟨i, hi⟩) = some (res.get ⟨i, hr⟩) := by
  intro l
  induction l with
  | nil =>
    intro res h
    simp only [optMapList_nil, Option.some.injEq] at h
    subst h
    exact ⟨rfl, fun i hi hr => absurd hi (Nat.not_lt_zero i)⟩
  | cons a l ih =>
    intro res h
    rw [optMapList_cons] at h
    cases hfa : f a with
    | none => rw [hfa] at h; exact absurd h (by simp)
    | some b =>
      rw [hfa] at h
      cases hrest : optMapList f l with
      | none => rw [hrest] at h; exact absurd h (by simp)
      | some bs =>
        rw [hrest] at h
        have h2 : b :: bs = res := by simpa using h
        subst h2
        obtain ⟨hlen, helem⟩ := ih hrest
        refine ⟨by simp [hlen], ?_⟩
        intro i hi hr
        cases i with
        | zero => simpa using hfa
        | succ j =>
          have hj : j < l.length := Nat.lt_of_succ_lt_succ hi
          have hj2 : j < bs.length := Nat.lt_of_succ_lt_succ hr
          simpa using helem j hj hj2

theorem optMapList_mem_some {α β : Type} {f : α → Option β} :
    ∀ {l : List α} {res : List β}, optMapList f l = some res →
      ∀ a ∈ l, ∃ b, f a = some b := by
  intro l
  induction l with
  | nil => intro res _ a ha; exact absurd ha (List.not_mem_nil a)
  | cons x l ih =>
    intro res h a ha
    rw [optMapList_cons] at h
    cases hfx : f x with
    | none => rw [hfx] at h; exact absurd h (by simp)
    | some b =>
      rw [hfx] at h
      cases hrest : optMapList f l with
      | none => rw [hrest] at h; exact absurd h (by simp)
      | some bs =>
        rcases List.mem_cons.mp ha with rfl | hmem
        · exact ⟨b, hfx⟩
        · exact ih hrest a hmem

theorem optMapList_eq_none_of_mem {α β : Type} {f : α → Option β} {l : List α}
    {a : α} (ha : a ∈ l) (hfa : f a = none) : optMapList f l = none := by
  cases h : optMapList f l with
  | none => rfl
  | some res =>
    obtain ⟨b, hb⟩ := optMapList_mem_some h a ha
    rw [hfa] at hb
    exact absurd hb (by simp)

theorem alookup_cons {α β : Type} [DecidableEq α] (k : α) (p : α × β)
    (d : List (α × β)) :
    alookup k (p :: d) = if p.1 = k then some p.2 else alookup k d := rfl

theorem alookup_dictInsert_self {α β : Type} [DecidableEq α]
    (d : List (α × β)) (k : α) (v : β) : alookup k (dictInsert d k v) = some v := by
  unfold dictInsert
  by_cases hk : k ∈ d.map Prod.fst
  · simp only [hk, if_true]
    induction d with
    | nil => simp at hk
    | cons p d ih =>
      by_cases hp : p.1 = k
      · simp [alookup_cons, hp]
      · have hk2 : k ∈ d.map Prod.fst := by
          rcases List.mem_map.mp hk with ⟨q, hq, hqk⟩
          rcases List.mem_cons.mp hq with rfl | hq2
          · exact absurd hqk hp
          · exact List.mem_map.mpr ⟨q, hq2, hqk⟩
        simp only [List.map_cons, alookup_cons, hp, if_false]
        exact ih hk2
  · simp only [hk, if_false]
    induction d with
    | nil => simp [alookup_cons]
    | cons p d ih =>
      have hp : ¬ p.1 = k := fun h => hk (List.mem_map.mpr ⟨p, List.mem_cons_self p d, h⟩)
      have hk2 : k ∉ d.map Prod.fst := fun h => hk (by simp [List.mem_map] at h ⊢; tauto)
      simp only [List.cons_append, alookup_cons, hp, if_false]
      exact ih hk2

theorem alookup_map_replace {α β : Type} [DecidableEq α]
    (k k2 : α) (v : β) (hne : k2 ≠ k) :
    ∀ d : List (α × β),
      alookup k2 (d.map (fun p => if p.1 = k then (k, v) else p)) = alookup k2 d := by
  intro d
  induction d with
  | nil => rfl
  | cons p d ih =>
    by_cases hp : p.1 = k
    · rw [List.map_cons, if_pos hp, alookup_cons, alookup_cons]
      have hkk2 : ¬ ((k, v).1 = k2) := fun h => hne h.symm
      have hp2 : ¬ (p.1 = k2) := by
        intro h
        exact hne (h.symm.trans hp)
      rw [if_neg hkk2, if_neg hp2, ih]
    · rw [List.map_cons, if_neg hp, alookup_cons, alookup_cons]
      by_cases hp2 : p.1 = k2
      · rw [if_pos hp2, if_pos hp2]
      · rw [if_neg hp2, if_neg hp2, ih]

theorem alookup_append_one_ne {α β : Type} [DecidableEq α]
    (k k2 : α) (v : β) (hne : k2 ≠ k) :
    ∀ d : List (α × β), alookup k2 (d ++ [(k, v)]) = alookup k2 d := by
  intro d
  induction d with
  | nil =>
    have hkk2 : ¬ (k = k2) := fun h => hne h.symm
    simp [alookup, hkk2]
  | cons p d ih =>
    by_cases hp2 : p.1 = k2
    · simp [alookup_cons, hp2]
    · simp [alookup_cons, hp2, ih]

theorem alookup_dictInsert_ne {α β : Type} [DecidableEq α]
    (d : List (α × β)) (k k2 : α) (v : β) (hne : k2 ≠ k) :
    alookup k2 (dictInsert d k v) = alookup k2 d := by
  unfold dictInsert
  by_cases hk : k ∈ d.map Prod.fst
  · simp only [hk, if_true]
    exact alookup_map_replace k k2 v hne d
  · simp only [hk, if_false]
    exact alookup_append_one_ne k k2 v hne d

theorem find?_first {α : Type} (p : α → Bool) :
    ∀ (l1 : List α) (c : α) (l2 : List α), p c = true → (∀ x ∈ l1, p x = false) →
      (l1 ++ c :: l2).find? p = some c := by
  intro l1
  induction l1 with
  | nil =>
    intro c l2 hc _
    simp [List.find?, hc]
  | cons x xs ih =>
    intro c l2 hc hall
    have hx : p x = false := hall x (List.mem_cons_self x xs)
    simp only [List.cons_append, List.find?, hx]
    exact ih c l2 hc (fun y hy => hall y (List.mem_cons_of_mem x hy))

theorem speciesMapOf_cons (canonical : List Species) (x : Species) (rest : List Species) :
    speciesMapOf (x :: rest) canonical =
      match canonical.find? (fun sp => isIso sp x) with
      | some c => (x, c) :: speciesMapOf rest canonical
      | none => speciesMapOf rest canonical := by
  unfold speciesMapOf
  rw [List.filterMap_cons]
  cases canonical.find? (fun sp => isIso sp x) <;> rfl

theorem alookup_speciesMapOf (canonical : List Species) (s0 : Species) :
    ∀ initial : List Species,
      alookup s0 (speciesMapOf initial canonical) =
        if s0 ∈ initial then canonical.find? (fun c => isIso c s0) else none := by
  intro initial
  induction initial with
  | nil => simp [speciesMapOf, alookup]
  | cons x rest ih =>
    cases hx : canonical.find? (fun sp => isIso sp x) with
    | none =>
      simp only [speciesMapOf_cons canonical x rest, hx]
      rw [ih]
      by_cases hmem : s0 = x
      · subst hmem
        by_cases h2 : s0 ∈ rest <;> simp [h2, hx, List.mem_cons]
      · simp [List.mem_cons, hmem]
    | some c =>
      simp only [speciesMapOf_cons canonical x rest, hx]
      rw [alookup_cons]
      by_cases hmem : s0 = x
      · subst hmem
        simp [hx, List.mem_cons]
      · have hne : ¬ x = s0 := fun h => hmem h.symm
        simp only [hne, if_false]
        rw [ih]
        simp [List.mem_cons, hmem]

/-- C1: a specification-side species with at least one structurally
equivalent canonical species is bound by the identity map to the first
such canonical species in canonical-list order, and a specification-side
species with no structurally equivalent canonical species gets no entry
in the map; resolution is the deterministic first-in-order choice. -/
theorem c1_first_match_resolution (initial canonical : List Species) (s0 : Species)
    (h : s0 ∈ initial) :
    ((∀ c ∈ canonical, isIso c s0 = false) →
      alookup s0 (speciesMapOf initial canonical) = none) ∧
    (∀ l1 c l2, canonical = l1 ++ c :: l2 → isIso c s0 = true →
      (∀ x ∈ l1, isIso x s0 = false) →
      alookup s0 (speciesMapOf initial canonical) = some c) := by
  constructor
  · intro hnone
    rw [alookup_speciesMapOf, if_pos h]
    exact List.find?_eq_none.mpr (fun c hc => by simp [hnone c hc])
  · intro l1 c l2 hdecomp hc hfirst
    rw [alookup_speciesMapOf, if_pos h, hdecomp]
    exact find?_first _ l1 c l2 hc hfirst

/-- Witness for C1 at a concrete input: the canonical list holds two
structurally identical species `sA` and `sAdup` after the unrelated `sB`;
the specification species `sAspec` resolves to `sA`, the earlier one. -/
theorem c1_first_match_resolution_witness :
    alookup sAspec (speciesMapOf [sAspec] [sB, sA, sAdup]) = some sA :=
  (c1_first_match_resolution [sAspec] [sB, sA, sAdup] sAspec (by decide)).2
    [sB] sA [sAdup] rfl (by decide) (by decide)

/-- C3: flux-pair completion invokes the pair-derivation capability
exactly on reactions whose cached pair list is empty, leaves an already
populated pair list exactly as it is, and running the completion pass
twice yields the same reaction list as running it once. -/
theorem c3_pair_completion_idempotent
    (der : List Species → List Species → List (Species × Species))
    (l : List Reaction) :
    completePairs der (completePairs der l) = completePairs der l ∧
    ∀ r ∈ l, (r.pairs ≠ [] → completeOne der r = r) ∧
      (r.pairs = [] → completeOne der r = { r with pairs := der r.reactants r.products }) := by
  constructor
  · unfold completePairs
    rw [List.map_map]
    apply List.map_congr_left
    intro r _
    show completeOne der (completeOne der r) = completeOne der r
    unfold completeOne
    by_cases hp : r.pairs.isEmpty
    · simp only [hp, if_true]
      by_cases hd : (der r.reactants r.products).isEmpty
      · simp [hd]
      · simp [hd]
    · simp [hp]
  · intro r _
    constructor
    · intro hne
      unfold completeOne
      rw [if_neg (by simpa [List.isEmpty_iff] using hne)]
    · intro heq
      unfold completeOne
      rw [if_pos (by simp [List.isEmpty_iff, heq])]

/-- Witness for C3 at a concrete input: a reaction with an
already-populated pair list of size 2 retains exactly that list, under a
derivation capability that would return something else. -/
theorem c3_pair_completion_idempotent_witness :
    completeOne (fun _ _ => []) ⟨[sA], [sB], [(sA, sB), (sB, sA)]⟩ =
      ⟨[sA], [sB], [(sA, sB), (sB, sA)]⟩ :=
  ((c3_pair_completion_idempotent (fun _ _ => []) [⟨[sA], [sB], [(sA, sB), (sB, sA)]⟩]).2
    ⟨[sA], [sB], [(sA, sB), (sB, sA)]⟩ (List.mem_singleton.mpr rfl)).1 (by decide)

theorem labStarts_self_append : ∀ p t : Label, labStarts p (p ++ t) = true := by
  intro p
  induction p with
  | nil => intro t; rfl
  | cons a as ih => intro t; simp [labStarts, ih t]

theorem hasObsTag_append_obs : ∀ lab : Label, hasObsTag (lab ++ obsSuffix) = true := by
  intro lab
  induction lab with
  | nil => decide
  | cons c rest ih =>
    show hasObsTag (c :: (rest ++ obsSuffix)) = true
    unfold hasObsTag
    rw [ih, Bool.or_true]

theorem mkObs_label (x : Species) : (mkObs x).label = x.label ++ obsSuffix := rfl

theorem qualifies_iff (constants l : List Species) (s : Species) :
    qualifies constants l s = true ↔
      hasObsTag s.label = false ∧ s.reactive = true ∧
        (∀ c ∈ constants, isIso s c = false) ∧
        (∀ s2 ∈ l, s2.label ≠ s.label ++ obsSuffix) := by
  unfold qualifies
  simp only [Bool.and_eq_true, Bool.not_eq_true', List.any_eq_false, beq_iff_eq]
  constructor
  · rintro ⟨⟨⟨h1, h2⟩, h3⟩, h4⟩
    exact ⟨h1, h2, fun c hc => Bool.not_eq_true _ ▸ (h3 c hc), h4⟩
  · rintro ⟨h1, h2, h3, h4⟩
    exact ⟨⟨⟨h1, h2⟩, fun c hc => by simp [h3 c hc]⟩, h4⟩

theorem synthObserved_eq (constants l : List Species) :
    synthObserved constants l = l ++ (l.filter (qualifies constants l)).map mkObs := rfl

/-- C5: one synthesizer pass for a sampled reactor appends to the
canonical species list exactly one new species per canonical species
that is reactive, lacks the observed tag in its label, is structurally
equivalent to no held-constant species of the reactor, and has no
existing canonical species labelled with its label plus the observed
suffix; each appended species is the structural copy of its original
relabeled with the suffix, and nothing is removed. -/
theorem c5_observed_synthesis (constants l : List Species) :
    (∃ added, synthObserved constants l = l ++ added) ∧
    (synthObserved constants l).length =
      l.length + (l.filter (qualifies constants l)).length ∧
    (∀ x : Species, (mkObs x).label = x.label ++ obsSuffix ∧
      (mkObs x).molecule = x.molecule ∧ (mkObs x).reactive = x.reactive) ∧
    ∀ s : Species, s ∈ (synthObserved constants l).drop l.length ↔
      ∃ x ∈ l, hasObsTag x.label = false ∧ x.reactive = true ∧
        (∀ c ∈ constants, isIso x c = false) ∧
        (∀ s2 ∈ l, s2.label ≠ x.label ++ obsSuffix) ∧ s = mkObs x := by
  refine ⟨⟨(l.filter (qualifies constants l)).map mkObs, rfl⟩, ?_, fun x => ⟨rfl, rfl, rfl⟩, ?_⟩
  · rw [synthObserved_eq, List.length_append, List.length_map]
  · intro s
    rw [synthObserved_eq, List.drop_left]
    simp only [List.mem_map, List.mem_filter]
    constructor
    · rintro ⟨x, ⟨hxl, hq⟩, rfl⟩
      obtain ⟨h1, h2, h3, h4⟩ := (qualifies_iff constants l x).mp hq
      exact ⟨x, hxl, h1, h2, h3, h4, rfl⟩
    · rintro ⟨x, hxl, h1, h2, h3, h4, rfl⟩
      exact ⟨x, ⟨hxl, (qualifies_iff constants l x).mpr ⟨h1, h2, h3, h4⟩⟩, rfl⟩

/-- Witness for C5 at the base scenario: a reactive canonical species
`sA`, no held-constant species and no existing observed copy; after one
pass the list has length 2 and contains the relabeled copy of `sA`. -/
theorem c5_observed_synthesis_witness :
    (synthObserved [] [sA]).length = 2 ∧ mkObs sA ∈ (synthObserved [] [sA]).drop 1 := by
  have h := c5_observed_synthesis [] [sA]
  refine ⟨?_, ?_⟩
  · rw [h.2.1]; decide
  · exact (h.2.2.2 (mkObs sA)).mpr
      ⟨sA, by decide, by decide, by decide, by decide, by decide, rfl⟩

theorem qualifies_false_of_extend (constants l tail : List Species) (a : Species)
    (hfalse : qualifies constants l a = false) :
    qualifies constants (l ++ tail) a = false := by
  cases hq : qualifies constants (l ++ tail) a with
  | false => rfl
  | true =>
    obtain ⟨h1, h2, h3, h4⟩ := (qualifies_iff constants (l ++ tail) a).mp hq
    have : qualifies constants l a = true :=
      (qualifies_iff constants l a).mpr
        ⟨h1, h2, h3, fun s2 hs2 => h4 s2 (List.mem_append_left tail hs2)⟩
    rw [hfalse] at this
    exact absurd this (by simp)

/-- C6: the observed-species synthesizer is idempotent on a reactor (a
second pass over the already-extended list stages nothing), and any pass
— in particular one for a second sampled reactor with its own constant
list, run after the first reactor's additions were appended — only
stages species whose observed label differs from the label of every
species already in the list. -/
theorem c6_synthesis_idempotent (constants l : List Species) :
    synthObserved constants (synthObserved constants l) = synthObserved constants l ∧
    ∀ (constants2 : List Species) (s : Species),
      s ∈ ((synthObserved constants l).filter
            (qualifies constants2 (synthObserved constants l))).map mkObs →
      ∀ s2 ∈ synthObserved constants l, s2.label ≠ s.label := by
  constructor
  · have hfilter : (synthObserved constants l).filter
        (qualifies constants (synthObserved constants l)) = [] := by
      rw [List.filter_eq_nil_iff]
      intro a ha
      rw [synthObserved_eq] at ha ⊢
      rcases List.mem_append.mp ha with hal | hanew
      · cases hq : qualifies constants l a with
        | true =>
          simp only [Bool.not_eq_true]
          cases hq2 : qualifies constants (l ++ (l.filter (qualifies constants l)).map mkObs) a with
          | false => rfl
          | true =>
            obtain ⟨_, _, _, h4⟩ :=
              (qualifies_iff constants (l ++ (l.filter (qualifies constants l)).map mkObs) a).mp hq2
            have hmem : mkObs a ∈ l ++ (l.filter (qualifies constants l)).map mkObs :=
              List.mem_append_right l (List.mem_map.mpr ⟨a, List.mem_filter.mpr ⟨hal, hq⟩, rfl⟩)
            exact absurd (mkObs_label a) (h4 (mkObs a) hmem)
        | false =>
          simp only [Bool.not_eq_true]
          exact qualifies_false_of_extend constants l _ a hq
      · simp only [Bool.not_eq_true]
        rcases List.mem_map.mp hanew with ⟨x, _, rfl⟩
        cases hq2 : qualifies constants (l ++ (l.filter (qualifies constants l)).map mkObs) (mkObs x) with
        | false => rfl
        | true =>
          obtain ⟨h1, _, _, _⟩ :=
            (qualifies_iff constants (l ++ (l.filter (qualifies constants l)).map mkObs) (mkObs x)).mp hq2
          rw [mkObs_label, hasObsTag_append_obs] at h1
          exact absurd h1 (by simp)
    rw [synthObserved_eq (l := synthObserved constants l), hfilter]
    simp
  · intro constants2 s hs s2 hs2
    rcases List.mem_map.mp hs with ⟨x, hx, rfl⟩
    obtain ⟨hxmem, hq⟩ := List.mem_filter.mp hx
    obtain ⟨_, _, _, h4⟩ :=
      (qualifies_iff constants2 (synthObserved constants l) x).mp hq
    rw [mkObs_label]
    exact h4 s2 hs2

/-- Witness for C6 at a concrete input: the first sampled reactor holds
`sA` constant so the first pass stages nothing; a second reactor with no
constant species stages the observed copy of `sA`, whose label differs
from the label of `sA` already in the list. -/
theorem c6_synthesis_idempotent_witness : sA.label ≠ (mkObs sA).label :=
  (c6_synthesis_idempotent [sA] [sA]).2 [] (mkObs sA) (by decide) sA (by decide)

theorem remapPairs_none_of_key {m : List (Species × Species)} {xs : List (Species × ℚ)}
    {k : Species} (hk : k ∈ xs.map Prod.fst) (hnone : alookup k m = none) :
    remapPairs m xs = none := by
  rcases List.mem_map.mp hk with ⟨p, hp, rfl⟩
  unfold remapPairs
  rw [optMapList_eq_none_of_mem hp (by rw [hnone]; rfl)]
  rfl

theorem remapReactorData_none_of_key {initial : List Species}
    {m : List (Species × Species)} {rd : ReactorData} {k : Species}
    (hk : k ∈ moleKeys rd) (hnone : alookup k m = none) :
    remapReactorData initial m rd = none := by
  cases rd with
  | liquid names concs =>
    have hp : remapPairs m concs = none := remapPairs_none_of_key hk hnone
    cases h1 : (if names.isEmpty then some names else constRemap initial m names) <;>
      simp [remapReactorData, h1, hp]
  | surface g s =>
    rcases List.mem_append.mp hk with hg | hs
    · have hp : remapPairs m g = none := remapPairs_none_of_key hg hnone
      simp [remapReactorData, hp]
    · have hp : remapPairs m s = none := remapPairs_none_of_key hs hnone
      cases h1 : remapPairs m g <;> simp [remapReactorData, h1, hp]
  | sampled c f =>
    have hp : remapPairs m f = none := remapPairs_none_of_key hk hnone
    simp [remapReactorData, hp]
  | simple f =>
    have hp : remapPairs m f = none := remapPairs_none_of_key hk hnone
    simp [remapReactorData, hp]

theorem remapReactor_none_of_data {initial : List Species}
    {m : List (Species × Species)} {r : Reactor}
    (h : remapReactorData initial m r.data = none) :
    remapReactor initial m r = none := by
  simp [remapReactor, h]

theorem remapReactor_none_of_termination {initial : List Species}
    {m : List (Species × Species)} {r : Reactor}
    (h : optMapList (remapTermination m) r.termination = none) :
    remapReactor initial m r = none := by
  cases h1 : remapReactorData initial m r.data <;> simp [remapReactor, h1, h]

theorem remapReactor_none_of_sensitive {initial : List Species}
    {m : List (Species × Species)} {r : Reactor}
    (h : remapSensitive m r.sensitiveSpecies = none) :
    remapReactor initial m r = none := by
  cases h1 : remapReactorData initial m r.data <;>
    cases h2 : optMapList (remapTermination m) r.termination <;>
      simp [remapReactor, h1, h2, h]

/-- C2: a specification-side species referenced by any reactor field —
a quantity-mapping key, the species of a conversion termination
criterion, or a sensitivity-list entry when the list is not the sentinel
— that is absent from the identity map makes the reactor's remapping
fail with a key-not-found result, and that failure makes the whole job
load fail rather than silently skipping the reactor. -/
theorem c2_unmapped_reference_fatal (initial : List Species)
    (m : List (Species × Species)) (r : Reactor) :
    ((∃ k ∈ moleKeys r.data, alookup k m = none) →
      remapReactor initial m r = none) ∧
    (∀ s f, Termination.conversion s f ∈ r.termination → alookup s m = none →
      remapReactor initial m r = none) ∧
    (r.sensitiveSpecies ≠ [SensEntry.allLit] →
      ∀ s, SensEntry.sp s ∈ r.sensitiveSpecies → alookup s m = none →
      remapReactor initial m r = none) ∧
    (∀ rs, r ∈ rs → remapReactor initial m r = none →
      remapAll initial m rs = none) := by
  refine ⟨?_, ?_, ?_, ?_⟩
  · rintro ⟨k, hk, hnone⟩
    exact remapReactor_none_of_data (remapReactorData_none_of_key hk hnone)
  · intro s f hmem hnone
    apply remapReactor_none_of_termination
    apply optMapList_eq_none_of_mem hmem
    simp [remapTermination, hnone]
  · intro hsent s hmem hnone
    apply remapReactor_none_of_sensitive
    unfold remapSensitive
    rw [if_neg hsent]
    apply optMapList_eq_none_of_mem hmem
    simp [remapSensEntry, hnone]
  · intro rs hmem hnone
    exact optMapList_eq_none_of_mem hmem hnone

/-- Witness for C2 at a concrete input: a gas-phase reactor whose mole
fractions reference `sAspec` while the identity map is empty; the whole
job load fails. -/
theorem c2_unmapped_reference_fatal_witness :
    remapAll [] [] [⟨ReactorData.simple [(sAspec, 1)], [], []⟩] = none :=
  (c2_unmapped_reference_fatal [] [] ⟨ReactorData.simple [(sAspec, 1)], [], []⟩).2.2.2
    [⟨ReactorData.simple [(sAspec, 1)], [], []⟩]
    (List.mem_singleton.mpr rfl)
    ((c2_unmapped_reference_fatal [] [] ⟨ReactorData.simple [(sAspec, 1)], [], []⟩).1
      ⟨sAspec, by decide, rfl⟩)

theorem foldl_dictInsert_of_nodup {α β : Type} [DecidableEq α] :
    ∀ (ps acc : List (α × β)),
      (acc.map Prod.fst ++ ps.map Prod.fst).Nodup →
      ps.foldl (fun d p => dictInsert d p.1 p.2) acc = acc ++ ps := by
  intro ps
  induction ps with
  | nil => intro acc _; simp
  | cons p ps ih =>
    intro acc h
    have hkey : p.1 ∉ acc.map Prod.fst := by
      rw [List.nodup_append] at h
      intro hmem
      exact h.2.2 hmem (by simp)
    have hins : dictInsert acc p.1 p.2 = acc ++ [p] := by
      unfold dictInsert
      rw [if_neg hkey]
    rw [List.foldl_cons, hins, ih (acc ++ [p]) (by simpa [List.append_assoc] using h),
      List.append_assoc]
    rfl

theorem dictOfList_of_nodup {α β : Type} [DecidableEq α] (ps : List (α × β))
    (h : (ps.map Prod.fst).Nodup) : dictOfList ps = ps := by
  unfold dictOfList
  have := foldl_dictInsert_of_nodup ps [] (by simpa using h)
  simpa using this

theorem forall2_mem_right {α β : Type} {R : α → β → Prop} :
    ∀ {xs : List α} {ps : List β}, List.Forall₂ R xs ps →
      ∀ q ∈ ps, ∃ p ∈ xs, R p q := by
  intro xs ps h
  induction h with
  | nil => intro q hq; exact absurd hq (List.not_mem_nil q)
  | cons hR _ ih =>
    intro q hq
    rcases List.mem_cons.mp hq with rfl | hq2
    · exact ⟨_, List.mem_cons_self _ _, hR⟩
    · rcases ih q hq2 with ⟨p, hp, hpq⟩
      exact ⟨p, List.mem_cons_of_mem _ hp, hpq⟩

theorem optMapList_forall2 (m : List (Species × Species)) :
    ∀ (xs ps : List (Species × ℚ)),
      optMapList (fun p => (alookup p.1 m).map (fun c => (c, p.2))) xs = some ps →
      List.Forall₂ (fun p q => alookup p.1 m = some q.1 ∧ q.2 = p.2) xs ps := by
  intro xs
  induction xs with
  | nil =>
    intro ps h
    have : ([] : List (Species × ℚ)) = ps := by simpa [optMapList] using h
    rw [← this]
    exact List.Forall₂.nil
  | cons x xs ih =>
    intro ps h
    rw [optMapList_cons] at h
    cases halk : alookup x.1 m with
    | none => rw [halk] at h; exact absurd h (by simp)
    | some c =>
      rw [halk] at h
      cases hrest : optMapList (fun p => (alookup p.1 m).map (fun c => (c, p.2))) xs with
      | none => rw [hrest] at h; exact absurd h (by simp)
      | some qs =>
        rw [hrest] at h
        have h2 : (c, x.2) :: qs = ps := by simpa using h
        rw [← h2]
        exact List.Forall₂.cons ⟨halk, rfl⟩ (ih qs hrest)

theorem forall2_snd_eq {m : List (Species × Species)} :
    ∀ {xs ps : List (Species × ℚ)},
      List.Forall₂ (fun p q => alookup p.1 m = some q.1 ∧ q.2 = p.2) xs ps →
      ps.map Prod.snd = xs.map Prod.snd := by
  intro xs ps h
  induction h with
  | nil => rfl
  | cons hR _ ih => simp [ih, hR.2]

theorem forall2_keys_nodup {m : List (Species × Species)} {xs0 : List (Species × ℚ)}
    (hinj : ∀ k1 k2 c, k1 ∈ xs0.map Prod.fst → k2 ∈ xs0.map Prod.fst →
      alookup k1 m = some c → alookup k2 m = some c → k1 = k2) :
    ∀ {xs ps : List (Species × ℚ)},
      List.Forall₂ (fun p q => alookup p.1 m = some q.1 ∧ q.2 = p.2) xs ps →
      (∀ p ∈ xs, p ∈ xs0) → (xs.map Prod.fst).Nodup → (ps.map Prod.fst).Nodup := by
  intro xs ps h
  induction h with
  | nil => intro _ _; simp
  | @cons p q xs2 ps2 hR hrest ih =>
    intro hsub hnd
    rw [List.map_cons, List.nodup_cons] at hnd ⊢
    refine ⟨?_, ih (fun r hr => hsub r (List.mem_cons_of_mem p hr)) hnd.2⟩
    intro hqmem
    rcases List.mem_map.mp hqmem with ⟨q2, hq2, hq2eq⟩
    rcases forall2_mem_right hrest q2 hq2 with ⟨p2, hp2, hp2R⟩
    have hk : p2.1 = p.1 := by
      apply hinj p2.1 p.1 q.1
      · exact List.mem_map.mpr ⟨p2, hsub p2 (List.mem_cons_of_mem p hp2), rfl⟩
      · exact List.mem_map.mpr ⟨p, hsub p (List.mem_cons_self p xs2), rfl⟩
      · rw [hp2R.1, hq2eq]
      · exact hR.1
    exact hnd.1 (List.mem_map.mpr ⟨p2, hp2, hk⟩)

/-- C4 as amended: with pairwise-distinct mapping keys whose images
under the identity map are also pairwise distinct, remapping a
quantity mapping changes only its keys — value by value — and so
preserves the list of numeric values and their sum. -/
theorem c4_remap_preserves_values (m : List (Species × Species))
    (xs res : List (Species × ℚ))
    (hnodup : (xs.map Prod.fst).Nodup)
    (hinj : ∀ k1 k2 c, k1 ∈ xs.map Prod.fst → k2 ∈ xs.map Prod.fst →
      alookup k1 m = some c → alookup k2 m = some c → k1 = k2)
    (h : remapPairs m xs = some res) :
    res.map Prod.snd = xs.map Prod.snd ∧
    (res.map Prod.snd).sum = (xs.map Prod.snd).sum ∧
    List.Forall₂ (fun p q => alookup p.1 m = some q.1 ∧ q.2 = p.2) xs res := by
  unfold remapPairs at h
  cases hopt : optMapList (fun p => (alookup p.1 m).map (fun c => (c, p.2))) xs with
  | none => rw [hopt] at h; exact absurd h (by simp)
  | some ps =>
    rw [hopt] at h
    have hres : dictOfList ps = res := by simpa using h
    have hf2 := optMapList_forall2 m xs ps hopt
    have hpsnd : (ps.map Prod.fst).Nodup :=
      forall2_keys_nodup hinj hf2 (fun p hp => hp) hnodup
    have hid : dictOfList ps = ps := dictOfList_of_nodup ps hpsnd
    have hps : res = ps := by rw [← hres, hid]
    subst hps
    exact ⟨forall2_snd_eq hf2, by rw [forall2_snd_eq hf2], hf2⟩

/-- Witness for the amended C4 at a concrete input: the single-key
mapping `sAspec to 1` remapped through the map sending `sAspec` to `sA`
keeps its value sum. -/
theorem c4_remap_preserves_values_witness :
    (([(sA, (1 : ℚ))]).map Prod.snd).sum = (([(sAspec, (1 : ℚ))]).map Prod.snd).sum :=
  (c4_remap_preserves_values (speciesMapOf [sAspec] [sA]) [(sAspec, 1)] [(sA, 1)]
    (by decide)
    (fun k1 k2 c h1 h2 _ _ => by
      simp only [List.map_cons, List.map_nil, List.mem_singleton] at h1 h2
      rw [h1, h2])
    (by decide)).2.1

/-- Counterexample to C4 as stated: two distinct specification-side
species that are structurally equivalent to the same canonical species
collapse to one dictionary key during remapping, losing one value and
changing the sum. -/
theorem c4_counterexample :
    remapPairs (speciesMapOf [sAspec, sAdup] [sA]) [(sAspec, 1), (sAdup, 2)] =
      some [(sA, 2)] ∧
    ¬ (([(sA, (2 : ℚ))]).map Prod.snd).sum =
      (([(sAspec, (1 : ℚ)), (sAdup, 2)]).map Prod.snd).sum := by
  constructor
  · decide
  · norm_num

/-- Counterexample to C7 as stated: a permission failure during
image-directory creation — a filesystem failure whose cause is not
"directory already exists" — is swallowed by the bare `except OSError`
handler and the pipeline continues, where the claim requires it to
propagate as fatal. -/
theorem c7_counterexample :
    mkdirHandled (some ExcClass.permissionError) = StepOutcome.continued ∧
    mkdirHandledSpec (some ExcClass.permissionError) =
      StepOutcome.raised ExcClass.permissionError ∧
    StepOutcome.continued ≠ StepOutcome.raised ExcClass.permissionError := by
  decide

/-- C7 as amended: an "already exists" failure is not an error and the
pipeline continues, and so does every other `OSError`-classed filesystem
failure — the handler swallows the whole `OSError` hierarchy — while
only a non-`OSError` exception propagates to the caller. -/
theorem c7_mkdir_error_handling :
    mkdirHandled none = StepOutcome.continued ∧
    mkdirHandled (some ExcClass.fileExistsError) = StepOutcome.continued ∧
    (∀ e, isOSError e = true → mkdirHandled (some e) = StepOutcome.continued) ∧
    (∀ e, isOSError e = false → mkdirHandled (some e) = StepOutcome.raised e) := by
  refine ⟨rfl, rfl, ?_, ?_⟩
  · intro e he
    simp [mkdirHandled, he]
  · intro e he
    simp [mkdirHandled, he]

/-- Witness for the amended C7: the concrete `IsADirectoryError`, an
`OSError` that is not "already exists", is swallowed and the pipeline
continues. -/
theorem c7_mkdir_error_handling_witness :
    mkdirHandled (some ExcClass.isADirectoryError) = StepOutcome.continued :=
  c7_mkdir_error_handling.2.2.1 ExcClass.isADirectoryError (by decide)

/-- C8: the sensitivity list is returned untouched when it is exactly the
`['all']` sentinel; otherwise the remap dereferences every entry, so a
successful remap has the same length and replaces each species entry by
its image under the identity map. -/
theorem c8_sensitivity_sentinel (m : List (Species × Species)) (l : List SensEntry) :
    (l = [SensEntry.allLit] → remapSensitive m l = some l) ∧
    (l ≠ [SensEntry.allLit] →
      remapSensitive m l = optMapList (remapSensEntry m) l ∧
      ∀ res, remapSensitive m l = some res →
        res.length = l.length ∧
        ∀ i (hi : i < l.length) (hr : i < res.length),
          remapSensEntry m (l.get ⟨i, hi⟩) = some (res.get ⟨i, hr⟩) ∧
          ∀ s, l.get ⟨i, hi⟩ = SensEntry.sp s →
            ∃ c, alookup s m = some c ∧ res.get ⟨i, hr⟩ = SensEntry.sp c) := by
  constructor
  · intro h
    subst h
    rfl
  · intro hne
    have heq : remapSensitive m l = optMapList (remapSensEntry m) l := by
      unfold remapSensitive
      rw [if_neg hne]
    refine ⟨heq, ?_⟩
    intro res hres
    rw [heq] at hres
    obtain ⟨hlen, helem⟩ := optMapList_eq_some hres
    refine ⟨hlen, ?_⟩
    intro i hi hr
    have h2 := helem i hi hr
    refine ⟨h2, ?_⟩
    intro s hs
    rw [hs] at h2
    have h3 : (alookup s m).map SensEntry.sp = some (res.get ⟨i, hr⟩) := h2
    cases halk : alookup s m with
    | none => rw [halk] at h3; exact absurd h3 (by simp)
    | some c =>
      refine ⟨c, rfl, ?_⟩
      rw [halk] at h3
      have h4 : SensEntry.sp c = res.get ⟨i, hr⟩ := by simpa using h3
      exact h4.symm

/-- Witness for C8 at a concrete input: the sentinel list is returned
untouched by remapping through the empty map. -/
theorem c8_sensitivity_sentinel_witness :
    remapSensitive [] [SensEntry.allLit] = some [SensEntry.allLit] :=
  (c8_sensitivity_sentinel [] [SensEntry.allLit]).1 rfl

/-- C9: remapping touches only conversion-based termination criteria —
after a successful remap of a reactor's termination list, every
time-based criterion is unchanged in place, and every conversion-based
criterion keeps its fraction and has only its species reference replaced
by its image under the identity map. -/
theorem c9_termination_frame (m : List (Species × Species))
    (ts res : List Termination)
    (h : optMapList (remapTermination m) ts = some res) :
    res.length = ts.length ∧
    ∀ i (hi : i < ts.length) (hr : i < res.length),
      (∀ t, ts.get ⟨i, hi⟩ = Termination.time t →
        res.get ⟨i, hr⟩ = Termination.time t) ∧
      (∀ s f, ts.get ⟨i, hi⟩ = Termination.conversion s f →
        ∃ c, alookup s m = some c ∧
          res.get ⟨i, hr⟩ = Termination.conversion c f) := by
  obtain ⟨hlen, helem⟩ := optMapList_eq_some h
  refine ⟨hlen, ?_⟩
  intro i hi hr
  have h2 := helem i hi hr
  constructor
  · intro t ht
    rw [ht] at h2
    have : some (Termination.time t) = some (res.get ⟨i, hr⟩) := by
      simpa [remapTermination] using h2
    exact (Option.some.inj this).symm
  · intro s f hs
    rw [hs] at h2
    have h3 : (alookup s m).map (fun c => Termination.conversion c f) =
        some (res.get ⟨i, hr⟩) := h2
    cases halk : alookup s m with
    | none => rw [halk] at h3; exact absurd h3 (by simp)
    | some c =>
      rw [halk] at h3
      refine ⟨c, rfl, ?_⟩
      have h4 : Termination.conversion c f = res.get ⟨i, hr⟩ := by simpa using h3
      exact h4.symm

/-- Witness for C9 at a concrete input: a one-element termination list
holding a time criterion is unchanged by remapping through the empty
map. -/
theorem c9_termination_frame_witness :
    ([Termination.time 1] : List Termination).get ⟨0, by decide⟩ = Termination.time 1 :=
  ((c9_termination_frame [] [Termination.time 1] [Termination.time 1] rfl).2
    0 (by decide) (by decide)).1 1 rfl

theorem buildConstDict_entry (m : List (Species × Species)) (names : List Label) :
    ∀ (init : List Species) (d d2 : List (Label × Label)),
      buildConstDict m names init d = some d2 →
      ∀ k v, alookup k d2 = some v →
        alookup k d = some v ∨
          ∃ s0 ∈ init, s0.label = k ∧ ∃ c, alookup s0 m = some c ∧ v = c.label := by
  intro init
  induction init with
  | nil =>
    intro d d2 h k v hkv
    have hd : d = d2 := by simpa [buildConstDict] using h
    subst hd
    exact Or.inl hkv
  | cons s0 rest ih =>
    intro d d2 h k v hkv
    cases hf : names.find? (fun nm => nm == s0.label) with
    | some nm =>
      cases hm : alookup s0 m with
      | some c =>
        have h2 : buildConstDict m names rest (dictInsert d nm c.label) = some d2 := by
          simpa [buildConstDict, hf, hm] using h
        rcases ih _ _ h2 k v hkv with hleft | ⟨s1, hs1, hlab, c2, hc2, hv⟩
        · by_cases hk : k = nm
          · rw [hk, alookup_dictInsert_self] at hleft
            have hnmlab : nm = s0.label := by simpa using List.find?_some hf
            refine Or.inr ⟨s0, List.mem_cons_self s0 rest, ?_, c, hm,
              (Option.some.inj hleft).symm⟩
            rw [hnmlab] at hk
            exact hk.symm
          · rw [alookup_dictInsert_ne d nm k c.label hk] at hleft
            exact Or.inl hleft
        · exact Or.inr ⟨s1, List.mem_cons_of_mem s0 hs1, hlab, c2, hc2, hv⟩
      | none =>
        rw [show buildConstDict m names (s0 :: rest) d = none by
          simp [buildConstDict, hf, hm]] at h
        exact absurd h (by simp)
    | none =>
      have h2 : buildConstDict m names rest d = some d2 := by
        simpa [buildConstDict, hf] using h
      rcases ih _ _ h2 k v hkv with hleft | ⟨s1, hs1, hrest2⟩
      · exact Or.inl hleft
      · exact Or.inr ⟨s1, List.mem_cons_of_mem s0 hs1, hrest2⟩

theorem buildConstDict_none_of_unmapped (m : List (Species × Species))
    (names : List Label) :
    ∀ (init : List Species) (d : List (Label × Label)),
      (∃ s0 ∈ init, (∃ nm ∈ names, s0.label = nm) ∧ alookup s0 m = none) →
      buildConstDict m names init d = none := by
  intro init
  induction init with
  | nil =>
    intro d h
    rcases h with ⟨s0, hs0, _⟩
    exact absurd hs0 (List.not_mem_nil s0)
  | cons s1 rest ih =>
    intro d h
    rcases h with ⟨s0, hs0, hnm, hm0⟩
    rcases List.mem_cons.mp hs0 with rfl | hrest
    · rcases hnm with ⟨nm, hnmmem, hlab⟩
      cases hf : names.find? (fun nm2 => nm2 == s0.label) with
      | none =>
        have hne := List.find?_eq_none.mp hf nm hnmmem
        exact absurd (by simp [hlab]) hne
      | some nm2 =>
        simp [buildConstDict, hf, hm0]
    · cases hf : names.find? (fun nm2 => nm2 == s1.label) with
      | some nm2 =>
        cases hm1 : alookup s1 m with
        | some c =>
          have heq : buildConstDict m names (s1 :: rest) d =
              buildConstDict m names rest (dictInsert d nm2 c.label) := by
            simp [buildConstDict, hf, hm1]
          rw [heq]
          exact ih _ ⟨s0, hrest, hnm, hm0⟩
        | none => simp [buildConstDict, hf, hm1]
      | none =>
        have heq : buildConstDict m names (s1 :: rest) d =
            buildConstDict m names rest d := by
          simp [buildConstDict, hf]
        rw [heq]
        exact ih _ ⟨s0, hrest, hnm, hm0⟩

/-- C10: for a liquid reactor with a non-empty constant-species-names
list, constant-name resolution fails with a key-not-found result when
some name matches the label of no initial species, and when an initial
species matching some name has no image under the identity map — in
which case the whole liquid-reactor remap fails; and when resolution
succeeds, every name has been rewritten to the canonical label of an
initial species carrying that name. -/
theorem c10_const_names_resolution (initial : List Species)
    (m : List (Species × Species)) (names : List Label) (hne : names ≠ []) :
    ((∃ nm ∈ names, ∀ s0 ∈ initial, s0.label ≠ nm) →
      constRemap initial m names = none) ∧
    ((∃ s0 ∈ initial, (∃ nm ∈ names, s0.label = nm) ∧ alookup s0 m = none) →
      constRemap initial m names = none) ∧
    (∀ concs, constRemap initial m names = none →
      remapReactorData initial m (ReactorData.liquid names concs) = none) ∧
    (∀ res, constRemap initial m names = some res →
      res.length = names.length ∧
      ∀ i (hi : i < names.length) (hr : i < res.length),
        ∃ s0 ∈ initial, s0.label = names.get ⟨i, hi⟩ ∧
          ∃ c, alookup s0 m = some c ∧ res.get ⟨i, hr⟩ = c.label) := by
  refine ⟨?_, ?_, ?_, ?_⟩
  · rintro ⟨nm, hnmmem, hnolabel⟩
    unfold constRemap
    cases hbd : buildConstDict m names initial [] with
    | none => rfl
    | some d =>
      have hmap : optMapList (fun nm2 => alookup nm2 d) names = none := by
        apply optMapList_eq_none_of_mem hnmmem
        cases halk : alookup nm d with
        | none => rfl
        | some v =>
          rcases buildConstDict_entry m names initial [] d hbd nm v halk with
            hleft | ⟨s0, hs0, hlab, _⟩
          · exact absurd hleft (by simp [alookup])
          · exact absurd hlab (hnolabel s0 hs0)
      simp [hmap]
  · intro hex
    unfold constRemap
    rw [buildConstDict_none_of_unmapped m names initial [] hex]
  · intro concs hcr
    have hie : names.isEmpty = false := by
      cases names with
      | nil => exact absurd rfl hne
      | cons a l => rfl
    cases hp : remapPairs m concs <;> simp [remapReactorData, hie, hcr, hp]
  · intro res hres
    unfold constRemap at hres
    cases hbd : buildConstDict m names initial [] with
    | none => rw [hbd] at hres; exact absurd hres (by simp)
    | some d =>
      rw [hbd] at hres
      obtain ⟨hlen, helem⟩ := optMapList_eq_some hres
      refine ⟨hlen, ?_⟩
      intro i hi hr
      have h2 := helem i hi hr
      rcases buildConstDict_entry m names initial [] d hbd _ _ h2 with
        hleft | ⟨s0, hs0, hlab, c, hc, hv⟩
      · exact absurd hleft (by simp [alookup])
      · exact ⟨s0, hs0, hlab, c, hc, hv⟩

/-- Witness for C10 at a concrete input: the liquid reactor names the
species labelled `As` as constant, the initial species list contains it,
but the identity map is empty, so constant-name resolution fails. -/
theorem c10_const_names_resolution_witness :
    constRemap [sAspec] [] [['A', 's']] = none :=
  (c10_const_names_resolution [sAspec] [] [['A', 's']] (by decide)).2.1
    ⟨sAspec, by decide, ⟨['A', 's'], by decide, by decide⟩, rfl⟩

end HelperLemmas

end RMGLoader
